import Mathlib

/-!
Verification of the damped-Newton superquadric minimizer
(`src/tools/src/minimizer.cpp`).

Shallow embedding conventions:

* `double` values are modelled by `ℚ` (exact arithmetic).  A `double`
  produced by the external derivative formulas may be NaN; the code tests
  `v != v` and skips such entries, so those oracle outputs are modelled by
  `Option ℚ` with `none` standing for NaN.
* `pcl::PointXYZ` is a coordinate triple, modelled by `ℚ × ℚ × ℚ`.
* `Eigen::VectorXd` of size `mNumParams = 11` is `Fin 11 → ℚ`;
  `Eigen::MatrixXd` of size 11×11 is `Matrix (Fin 11) (Fin 11) ℚ`.
  A second, dynamically sized embedding of `df`/`ddf` over plain lists
  (`dfL`, `ddfL`) mirrors the runtime-sized Eigen buffers and the
  index-bounded write loops, for the dimension-invariant claim.
* `Eigen`'s `.inverse()` is the adjugate/determinant inverse `matInv`
  (equal to Mathlib's nonsingular inverse, see `matInv_eq_inv`).
* The loop compares `error = (mParams - oldParams).norm()` against
  `mMinThresh`.  Since both sides are nonnegative (`mMinThresh` is the
  positive constant 0.005 from the constructor), `norm > thresh` holds iff
  `normSq > thresh ^ 2`; the embedding carries the squared step size
  `errSq` and compares it with `mMinThresh ^ 2`, which keeps every value
  rational.
* The externally linked symbols `jac_` and `hessian_` (closed-form first
  and second derivative formulas, supplied pre-differentiated per the
  design) are carried as fields of the `minimizer` structure; they are
  pure functions of the parameters and one point.
* Console output (`std::cout`) is observability only; the NaN diagnostics
  printed by `df`/`ddf` are modelled explicitly by `dfDiags`/`ddfDiags`,
  which list the reported component indices in print order.
* `params2Vec`/`vec2Param` convert between `SQ_params` and an 11-vector;
  the parameter record is modelled directly by the 11-vector, so both
  conversions are the identity here.
-/

/-- Number of fitted parameters: `mNumParams = 11` (a,b,c, e1,e2, px,py,pz,
ra,pa,ya), set once in the `minimizer` constructor. -/
abbrev mNumParams : ℕ := 11

/-- An 11-slot parameter vector (`Eigen::VectorXd` resized to `mNumParams`). -/
abbrev ParamVec : Type := Fin mNumParams → ℚ

/-- An 11×11 matrix (`Eigen::MatrixXd`). -/
abbrev MatXd : Type := Matrix (Fin mNumParams) (Fin mNumParams) ℚ

/-- A sample point (`pcl::PointXYZ`): the coordinates `(x, y, z)`. -/
abbrev SQPoint : Type := ℚ × ℚ × ℚ

/-- The `minimizer` class state together with the externally linked
derivative formulas it calls.  `mLambda = 0.1`, `mMaxIter = 1000` and
`mMinThresh = 0.005` are fixed by the constructor; the embedding keeps them
abstract but records that the threshold is positive, as the constructor
value is. -/
structure minimizer where
  /-- Damping factor `mLambda`. -/
  mLambda : ℚ
  /-- Iteration cap `mMaxIter`. -/
  mMaxIter : ℕ
  /-- Convergence threshold `mMinThresh` on the step norm. -/
  mMinThresh : ℚ
  /-- The constructor sets `mMinThresh = 0.005 > 0`. -/
  mMinThreshPos : 0 < mMinThresh
  /-- The sample cloud `mSamples`, in iteration order. -/
  mSamples : List SQPoint
  /-- The member parameter vector `mParams`. -/
  mParams : ParamVec
  /-- External first-derivative formula `jac_`: given the 11 parameters and
  one point, the 11 per-parameter contributions; `none` models NaN. -/
  jac_ : ParamVec → SQPoint → Fin mNumParams → Option ℚ
  /-- External second-derivative formula `hessian_`: the 11×11 (row-major
  `hes[m*11+n]`) per-point contributions; `none` models NaN. -/
  hessian_ : ParamVec → SQPoint → Fin mNumParams → Fin mNumParams → Option ℚ

/-- The inverse of a square rational matrix, written as
`det⁻¹ • adjugate`, which is what `Eigen`'s `.inverse()` computes for an
invertible matrix (and equals Mathlib's `A⁻¹`, see `matInv_eq_inv`). -/
def matInv (A : MatXd) : MatXd := A.det⁻¹ • A.adjugate

/-- `matInv` coincides with Mathlib's nonsingular inverse. -/
lemma matInv_eq_inv (A : MatXd) : matInv A = A⁻¹ := by
  rw [Matrix.inv_def, matInv, Ring.inverse_eq_inv]

/-- Squared Euclidean norm of a vector: `v.norm()` squared. -/
def sqNorm (v : ParamVec) : ℚ := ∑ i, v i ^ 2

/-- `minimizer::df` (lines 142–192): the gradient accumulator.  Starts from
the zero vector and, per sample point, adds each component of the `jac_`
output unless that component is NaN (`jac[n] != jac[n]`), which is skipped. -/
def minimizer.df (m : minimizer) (ps : ParamVec) : ParamVec :=
  m.mSamples.foldl
    (fun acc pt => fun n =>
      match m.jac_ ps pt n with
      | none => acc n
      | some v => acc n + v)
    (fun _ => 0)

/-- `minimizer::ddf` (lines 198–253): the Hessian accumulator.  Starts from
the zero matrix and, per sample point, adds each entry of the `hessian_`
output unless that entry is NaN, which is skipped. -/
def minimizer.ddf (m : minimizer) (ps : ParamVec) : MatXd :=
  m.mSamples.foldl
    (fun acc pt => Matrix.of fun i j =>
      match m.hessian_ ps pt i j with
      | none => acc i j
      | some v => acc i j + v)
    0

/-- The NaN diagnostics printed by `df` (line 183): for each point in
iteration order, the component indices `n` whose `jac_` contribution is
NaN, in index order. -/
def minimizer.dfDiags (m : minimizer) (ps : ParamVec) : List (Fin mNumParams) :=
  m.mSamples.flatMap fun pt =>
    (List.finRange mNumParams).filter fun n => (m.jac_ ps pt n).isNone

/-- All 121 index pairs `(m, n)` in the row-major order of the `ddf` inner
loops. -/
def hesIdxPairs : List (Fin mNumParams × Fin mNumParams) :=
  (List.finRange mNumParams).flatMap fun i =>
    (List.finRange mNumParams).map fun j => (i, j)

/-- The NaN diagnostics printed by `ddf` (line 241): for each point in
iteration order, the index pairs whose `hessian_` contribution is NaN, in
row-major order. -/
def minimizer.ddfDiags (m : minimizer) (ps : ParamVec) :
    List (Fin mNumParams × Fin mNumParams) :=
  m.mSamples.flatMap fun pt =>
    hesIdxPairs.filter fun q => (m.hessian_ ps pt q.1 q.2).isNone

/-- The loop-carried state of `minimizer::minimize`: the member parameter
vector, the damping matrix `dH` (a local that persists across iterations of
the do-while loop), the iteration counter and the squared step size
`error^2` of the most recent iteration. -/
structure IterState where
  mParams : ParamVec
  dH : MatXd
  iter : ℕ
  errSq : ℚ

/-- One iteration of the do-while body of `minimizer::minimize`
(lines 105–116): evaluate `H = ddf`, `J = df`, overwrite the diagonal of
`dH` with the diagonal of `H` (off-diagonal entries are left as they are),
update `mParams ← mParams - (H + mLambda*dH).inverse()*J`, increment the
counter, and record `error = (mParams - oldParams).norm()` (stored
squared). -/
def loopBody (m : minimizer) (s : IterState) : IterState :=
  let H := m.ddf s.mParams
  let J := m.df s.mParams
  let dH := Matrix.of fun i j => if i = j then H i i else s.dH i j
  let newParams := s.mParams - (matInv (H + m.mLambda • dH)).mulVec J
  { mParams := newParams
    dH := dH
    iter := s.iter + 1
    errSq := sqNorm (newParams - s.mParams) }

@[simp] lemma loopBody_iter (m : minimizer) (s : IterState) :
    (loopBody m s).iter = s.iter + 1 := rfl

lemma loopBody_dH (m : minimizer) (s : IterState) :
    (loopBody m s).dH =
      Matrix.of fun i j => if i = j then m.ddf s.mParams i i else s.dH i j := rfl

lemma loopBody_mParams (m : minimizer) (s : IterState) :
    (loopBody m s).mParams =
      s.mParams -
        (matInv (m.ddf s.mParams + m.mLambda • (loopBody m s).dH)).mulVec
          (m.df s.mParams) := rfl

lemma loopBody_errSq (m : minimizer) (s : IterState) :
    (loopBody m s).errSq = sqNorm ((loopBody m s).mParams - s.mParams) := rfl

/-- The do-while loop of `minimize`: run the body once, then repeat while
`iter < mMaxIter && error > mMinThresh` (squared comparison, see the header
comment). -/
def loopFrom (m : minimizer) (s : IterState) : IterState :=
  if h : (loopBody m s).iter < m.mMaxIter ∧
      m.mMinThresh ^ 2 < (loopBody m s).errSq then
    loopFrom m (loopBody m s)
  else
    loopBody m s
termination_by m.mMaxIter - s.iter
decreasing_by
  have h2 : (loopBody m s).iter = s.iter + 1 := rfl
  have h1 := h.1
  omega

/-- The state at loop entry: `mParams` is `params2Vec(_par_in)` (line 101),
`dH` starts as the identity matrix (line 94), `iter = 0` (line 98); the
local `error` is uninitialized before the first body run, modelled as 0
(its value is never read before the body assigns it). -/
def initState (par_in : ParamVec) : IterState :=
  { mParams := par_in, dH := 1, iter := 0, errSq := 0 }

/-- The loop state at exit of the do-while loop of `minimize`. -/
def finalState (m : minimizer) (par_in : ParamVec) : IterState :=
  loopFrom m (initState par_in)

/-- `minimizer::minimize` (lines 90–136): runs the loop, writes the final
parameters to `_par_out` via `vec2Param` unconditionally (line 119), and
returns `false` when `iter >= mMaxIter`, else `true`.  The result models
`(post-state of the object, returned bool, _par_out)`. -/
def minimizer.minimize (m : minimizer) (par_in : ParamVec) :
    minimizer × Bool × ParamVec :=
  ({ m with mParams := (finalState m par_in).mParams },
   if (finalState m par_in).iter ≥ m.mMaxIter then false else true,
   (finalState m par_in).mParams)

/-- The iteration counter after `k` applications of the loop body. -/
lemma iterate_iter (m : minimizer) (s : IterState) :
    ∀ k, ((loopBody m)^[k] s).iter = s.iter + k := by
  intro k
  induction k with
  | zero => simp
  | succ k ih => rw [Function.iterate_succ_apply', loopBody_iter, ih]; omega

/-- Characterization of the do-while run: `loopFrom` reaches the state after
some positive number `k` of body applications, every strictly earlier
iteration satisfied the continuation condition, and the final one does not. -/
lemma loopFrom_run_aux (m : minimizer) :
    ∀ (n : ℕ) (s : IterState), m.mMaxIter - s.iter ≤ n →
      ∃ k, 0 < k ∧ loopFrom m s = (loopBody m)^[k] s ∧
        (∀ j, 0 < j → j < k →
          ((loopBody m)^[j] s).iter < m.mMaxIter ∧
            m.mMinThresh ^ 2 < ((loopBody m)^[j] s).errSq) ∧
        ¬(((loopBody m)^[k] s).iter < m.mMaxIter ∧
            m.mMinThresh ^ 2 < ((loopBody m)^[k] s).errSq) := by
  intro n
  induction n with
  | zero =>
      intro s hle
      have hstop : ¬((loopBody m s).iter < m.mMaxIter ∧
          m.mMinThresh ^ 2 < (loopBody m s).errSq) := by
        rintro ⟨h1, -⟩
        rw [loopBody_iter] at h1
        omega
      refine ⟨1, one_pos, ?_, ?_, ?_⟩
      · rw [loopFrom, dif_neg hstop, Function.iterate_one]
      · intro j hj0 hj1; omega
      · rw [Function.iterate_one]; exact hstop
  | succ n ih =>
      intro s hle
      by_cases hc : (loopBody m s).iter < m.mMaxIter ∧
          m.mMinThresh ^ 2 < (loopBody m s).errSq
      · have hstep : (loopBody m s).iter = s.iter + 1 := rfl
        have hmeas : m.mMaxIter - (loopBody m s).iter ≤ n := by
          have := hc.1; omega
        obtain ⟨k, hk0, heq, hall, hstop⟩ := ih (loopBody m s) hmeas
        refine ⟨k + 1, by omega, ?_, ?_, ?_⟩
        · rw [loopFrom, dif_pos hc, heq, Function.iterate_succ_apply]
        · intro j hj0 hjk
          obtain ⟨j', rfl⟩ : ∃ j', j = j' + 1 := ⟨j - 1, by omega⟩
          rw [Function.iterate_succ_apply]
          rcases Nat.eq_zero_or_pos j' with hz | hpos
          · subst hz
            rw [Function.iterate_zero_apply]
            exact hc
          · exact hall j' hpos (by omega)
        · rw [Function.iterate_succ_apply]
          exact hstop
      · refine ⟨1, one_pos, ?_, ?_, ?_⟩
        · rw [loopFrom, dif_neg hc, Function.iterate_one]
        · intro j hj0 hj1; omega
        · rw [Function.iterate_one]; exact hc

/-- The do-while run characterization, at the standard entry state. -/
lemma loopFrom_run (m : minimizer) (s : IterState) :
    ∃ k, 0 < k ∧ loopFrom m s = (loopBody m)^[k] s ∧
      (∀ j, 0 < j → j < k →
        ((loopBody m)^[j] s).iter < m.mMaxIter ∧
          m.mMinThresh ^ 2 < ((loopBody m)^[j] s).errSq) ∧
      ¬(((loopBody m)^[k] s).iter < m.mMaxIter ∧
          m.mMinThresh ^ 2 < ((loopBody m)^[k] s).errSq) :=
  loopFrom_run_aux m (m.mMaxIter - s.iter) s le_rfl

/-- NaN-skipping addition: the match in the accumulators equals adding the
value with NaN replaced by zero. -/
lemma optAdd_eq_getD (a : ℚ) (o : Option ℚ) :
    (match o with
     | none => a
     | some v => a + v) = a + o.getD 0 := by
  cases o <;> simp

/-- Componentwise value of the gradient accumulator: the sum over the
sample points of the `jac_` contribution, with NaN entries counted as 0. -/
lemma df_apply (m : minimizer) (ps : ParamVec) (n : Fin mNumParams) :
    m.df ps n = (m.mSamples.map fun pt => (m.jac_ ps pt n).getD 0).sum := by
  have key : ∀ (l : List SQPoint) (acc : ParamVec),
      (l.foldl
        (fun acc pt => fun n =>
          match m.jac_ ps pt n with
          | none => acc n
          | some v => acc n + v)
        acc) n = acc n + (l.map fun pt => (m.jac_ ps pt n).getD 0).sum := by
    intro l
    induction l with
    | nil => intro acc; simp
    | cons pt l ih =>
        intro acc
        rw [List.foldl_cons, ih, List.map_cons, List.sum_cons]
        rw [optAdd_eq_getD]
        ring
  rw [minimizer.df, key]
  simp

/-- Entrywise value of the Hessian accumulator: the sum over the sample
points of the `hessian_` contribution, with NaN entries counted as 0. -/
lemma ddf_apply (m : minimizer) (ps : ParamVec) (i j : Fin mNumParams) :
    m.ddf ps i j = (m.mSamples.map fun pt => (m.hessian_ ps pt i j).getD 0).sum := by
  have key : ∀ (l : List SQPoint) (acc : MatXd),
      (l.foldl
        (fun acc pt => Matrix.of fun i j =>
          match m.hessian_ ps pt i j with
          | none => acc i j
          | some v => acc i j + v)
        acc) i j = acc i j + (l.map fun pt => (m.hessian_ ps pt i j).getD 0).sum := by
    intro l
    induction l with
    | nil => intro acc; simp
    | cons pt l ih =>
        intro acc
        rw [List.foldl_cons, ih, List.map_cons, List.sum_cons]
        rw [Matrix.of_apply, optAdd_eq_getD]
        ring
  rw [minimizer.ddf, key]
  simp

/-- Invariant: the off-diagonal entries of the damping matrix are zero at
every reachable loop state — they start as the identity off-diagonal
(line 94) and the body only writes the diagonal (line 110). -/
lemma iterate_dH_offdiag (m : minimizer) (p : ParamVec) :
    ∀ k (i j : Fin mNumParams), i ≠ j →
      ((loopBody m)^[k] (initState p)).dH i j = 0 := by
  intro k
  induction k with
  | zero =>
      intro i j hij
      simp only [Function.iterate_zero_apply, initState]
      exact Matrix.one_apply_ne hij
  | succ k ih =>
      intro i j hij
      rw [Function.iterate_succ_apply', loopBody_dH, Matrix.of_apply, if_neg hij]
      exact ih i j hij

lemma minimize_out (m : minimizer) (p : ParamVec) :
    (m.minimize p).2.2 = (finalState m p).mParams := rfl

lemma minimize_post_mParams (m : minimizer) (p : ParamVec) :
    (m.minimize p).1.mParams = (finalState m p).mParams := rfl

lemma minimize_flag (m : minimizer) (p : ParamVec) :
    (m.minimize p).2.1 =
      if (finalState m p).iter ≥ m.mMaxIter then false else true := rfl

/-- The iteration counter of the `k`-th loop state of a run started at
`initState`. -/
lemma iterate_iter_init (m : minimizer) (p : ParamVec) (k : ℕ) :
    ((loopBody m)^[k] (initState p)).iter = k := by
  rw [iterate_iter]; simp [initState]

/-- The loop state after `k` body applications from the entry state. -/
def iterAt (m : minimizer) (p : ParamVec) (k : ℕ) : IterState :=
  (loopBody m)^[k] (initState p)

/-- The Hessian `H = ddf` evaluated by iteration `k + 1` of the loop. -/
def H_at (m : minimizer) (p : ParamVec) (k : ℕ) : MatXd :=
  m.ddf (iterAt m p k).mParams

/-- The gradient `J = df` evaluated by iteration `k + 1` of the loop. -/
def J_at (m : minimizer) (p : ParamVec) (k : ℕ) : ParamVec :=
  m.df (iterAt m p k).mParams

/-- The damping matrix of iteration `k + 1`: the diagonal of `H` on the
diagonal, zero elsewhere. -/
def D_at (m : minimizer) (p : ParamVec) (k : ℕ) : MatXd :=
  Matrix.diagonal fun i => H_at m p k i i

/-- The damped system matrix `H + λ·D` of iteration `k + 1`. -/
def A_at (m : minimizer) (p : ParamVec) (k : ℕ) : MatXd :=
  H_at m p k + m.mLambda • D_at m p k

/-- C1: on every iteration of `minimize`, the damping matrix `dH` built by
the body equals the diagonal matrix extracted from `H = ddf` (diagonal of
`H` on the diagonal, zero elsewhere); the new parameters are the old ones
minus `(H + mLambda • D)⁻¹ * J` with `J = df`; hence, whenever
`H + mLambda • D` is invertible, the applied update
`Δ = oldParams - newParams` solves the linear system `(H + λ·D) · Δ = J`. -/
theorem spec_C1 (m : minimizer) (p : ParamVec) (k : ℕ) :
    (loopBody m (iterAt m p k)).dH = D_at m p k ∧
    (loopBody m (iterAt m p k)).mParams =
      (iterAt m p k).mParams - (matInv (A_at m p k)).mulVec (J_at m p k) ∧
    (IsUnit (A_at m p k).det →
      (A_at m p k).mulVec
          ((iterAt m p k).mParams - (loopBody m (iterAt m p k)).mParams) =
        J_at m p k) := by
  have hD : (loopBody m (iterAt m p k)).dH = D_at m p k := by
    rw [loopBody_dH]
    apply Matrix.ext
    intro i j
    rw [Matrix.of_apply, D_at]
    by_cases hij : i = j
    · subst hij
      rw [if_pos rfl, Matrix.diagonal_apply_eq, H_at]
    · rw [if_neg hij, Matrix.diagonal_apply_ne _ hij]
      exact iterate_dH_offdiag m p k i j hij
  have hP : (loopBody m (iterAt m p k)).mParams =
      (iterAt m p k).mParams - (matInv (A_at m p k)).mulVec (J_at m p k) := by
    rw [loopBody_mParams, hD, A_at, H_at, J_at]
  refine ⟨hD, hP, ?_⟩
  intro hU
  rw [hP, sub_sub_cancel, matInv_eq_inv, Matrix.mulVec_mulVec,
    Matrix.mul_nonsing_inv _ hU, Matrix.one_mulVec]

/-- C2: `minimize` returns `true` (converged) iff the squared step size
drops to at most `mMinThresh ^ 2` at some iteration strictly before the
count reaches `mMaxIter`; and with `mMaxIter = 1` it returns `false` after
exactly one iteration, still producing the once-updated parameters. -/
theorem spec_C2 (m : minimizer) (p : ParamVec) :
    ((m.minimize p).2.1 = true ↔
      ∃ j, 0 < j ∧ j < m.mMaxIter ∧
        ((loopBody m)^[j] (initState p)).errSq ≤ m.mMinThresh ^ 2) ∧
    (m.mMaxIter = 1 →
      (m.minimize p).2.1 = false ∧ (finalState m p).iter = 1 ∧
      (m.minimize p).2.2 = (loopBody m (initState p)).mParams) := by
  obtain ⟨K, hK0, heq, hall, hstop⟩ := loopFrom_run m (initState p)
  have hfin : finalState m p = (loopBody m)^[K] (initState p) := heq
  have hfinIter : (finalState m p).iter = K := by
    rw [hfin, iterate_iter_init]
  constructor
  · constructor
    · intro hflag
      have hKlt : K < m.mMaxIter := by
        by_contra hge
        rw [minimize_flag, hfinIter, if_pos (by omega)] at hflag
        exact Bool.noConfusion hflag
      refine ⟨K, hK0, hKlt, ?_⟩
      rw [iterate_iter_init] at hstop
      rcases not_and_or.mp hstop with h1 | h2
      · exact absurd hKlt h1
      · exact le_of_not_lt h2
    · rintro ⟨j, hj0, hjlt, hjle⟩
      have hKlt : K < m.mMaxIter := by
        by_contra hge
        push_neg at hge
        have hjK : j < K := lt_of_lt_of_le hjlt hge
        exact absurd hjle (not_le.mpr (hall j hj0 hjK).2)
      rw [minimize_flag, hfinIter, if_neg (by omega)]
  · intro h1
    have hK1 : K = 1 := by
      by_contra hne
      have h2K : 1 < K := by omega
      have := (hall 1 one_pos h2K).1
      rw [iterate_iter_init] at this
      omega
    refine ⟨?_, ?_, ?_⟩
    · rw [minimize_flag, hfinIter, hK1, if_pos (by omega)]
    · rw [hfinIter, hK1]
    · rw [minimize_out, hfin, hK1, Function.iterate_one]

/-- C5: both terminal outcomes hand back the latest loop parameters: the
`_par_out` result and the post-object member `mParams` both equal the
parameters of the final loop state, which is the state after exactly
`iter ≥ 1` body applications; the success flag plays no role in which
parameters are returned (no rollback). -/
theorem spec_C5 (m : minimizer) (p : ParamVec) :
    (m.minimize p).2.2 = (finalState m p).mParams ∧
    (m.minimize p).1.mParams = (finalState m p).mParams ∧
    finalState m p = (loopBody m)^[(finalState m p).iter] (initState p) ∧
    1 ≤ (finalState m p).iter := by
  obtain ⟨K, hK0, heq, -, -⟩ := loopFrom_run m (initState p)
  have hfin : finalState m p = (loopBody m)^[K] (initState p) := heq
  have hfinIter : (finalState m p).iter = K := by
    rw [hfin, iterate_iter_init]
  refine ⟨rfl, rfl, ?_, ?_⟩
  · rw [hfinIter]; exact hfin
  · omega

/-- C9: the loop is do-while: the body runs before any stopping test, so
the final iteration count is at least 1, the returned parameters are those
of the `iter`-fold body application, and the final state is the output of
at least one damped-Newton update. -/
theorem spec_C9 (m : minimizer) (p : ParamVec) :
    1 ≤ (finalState m p).iter ∧
    (m.minimize p).2.2 =
      ((loopBody m)^[(finalState m p).iter] (initState p)).mParams ∧
    ∃ t, finalState m p = loopBody m t := by
  obtain ⟨K, hK0, heq, -, -⟩ := loopFrom_run m (initState p)
  have hfin : finalState m p = (loopBody m)^[K] (initState p) := heq
  have hfinIter : (finalState m p).iter = K := by
    rw [hfin, iterate_iter_init]
  refine ⟨by omega, ?_, ?_⟩
  · rw [minimize_out, hfinIter, ← hfin]
  · obtain ⟨K', rfl⟩ : ∃ K', K = K' + 1 := ⟨K - 1, by omega⟩
    exact ⟨(loopBody m)^[K'] (initState p),
      hfin.trans (Function.iterate_succ_apply' (loopBody m) K' (initState p))⟩

/-- C10: the success flag depends only on whether the final iteration count
reached `mMaxIter`, not on the final step size; in particular, when the
step size stays above threshold for all iterations before `mMaxIter` and
first drops to the threshold exactly on the `mMaxIter`-th iteration,
`minimize` still reports `false` after exactly `mMaxIter` iterations. -/
theorem spec_C10 (m : minimizer) (p : ParamVec) :
    ((m.minimize p).2.1 = false ↔ m.mMaxIter ≤ (finalState m p).iter) ∧
    (1 ≤ m.mMaxIter →
      (∀ j, 0 < j → j < m.mMaxIter →
        m.mMinThresh ^ 2 < ((loopBody m)^[j] (initState p)).errSq) →
      ((loopBody m)^[m.mMaxIter] (initState p)).errSq ≤ m.mMinThresh ^ 2 →
      (m.minimize p).2.1 = false ∧ (finalState m p).iter = m.mMaxIter) := by
  obtain ⟨K, hK0, heq, hall, hstop⟩ := loopFrom_run m (initState p)
  have hfin : finalState m p = (loopBody m)^[K] (initState p) := heq
  have hfinIter : (finalState m p).iter = K := by
    rw [hfin, iterate_iter_init]
  constructor
  · constructor
    · intro hflag
      by_contra hlt
      push_neg at hlt
      rw [minimize_flag, if_neg (by omega)] at hflag
      exact Bool.noConfusion hflag
    · intro hge
      rw [minimize_flag, if_pos hge]
  · intro hcap herr _hlast
    have hKle : K ≤ m.mMaxIter := by
      by_contra hgt
      push_neg at hgt
      have := (hall m.mMaxIter (by omega) hgt).1
      rw [iterate_iter_init] at this
      omega
    have hKge : m.mMaxIter ≤ K := by
      by_contra hlt
      push_neg at hlt
      rw [iterate_iter_init] at hstop
      rcases not_and_or.mp hstop with hx | hx
      · omega
      · exact absurd (herr K hK0 hlt) hx
    have hKeq : K = m.mMaxIter := le_antisymm hKle hKge
    constructor
    · rw [minimize_flag, hfinIter, hKeq, if_pos le_rfl]
    · rw [hfinIter, hKeq]

/-- C3: each gradient component is the sum over all sample points of the
corresponding `jac_` component (NaN contributions counted as zero, per the
skip in line 182), each Hessian entry is the analogous sum of `hessian_`
values, and an empty sample set yields the zero vector and zero matrix. -/
theorem spec_C3 (m : minimizer) (ps : ParamVec) :
    (∀ n, m.df ps n = (m.mSamples.map fun pt => (m.jac_ ps pt n).getD 0).sum) ∧
    (∀ i j, m.ddf ps i j =
      (m.mSamples.map fun pt => (m.hessian_ ps pt i j).getD 0).sum) ∧
    (m.mSamples = [] → m.df ps = 0 ∧ m.ddf ps = 0) := by
  refine ⟨df_apply m ps, ddf_apply m ps, ?_⟩
  intro h
  constructor
  · funext n
    rw [df_apply, h]
    simp
  · apply Matrix.ext
    intro i j
    rw [ddf_apply, h]
    simp

/-- C4: a point all of whose derivative contributions are NaN is excluded
from both aggregations — inserting it anywhere in the sample list leaves
`df` and `ddf` unchanged — while its NaN entries are reported in the
diagnostic streams (all 11 gradient indices and all 121 Hessian index
pairs), and the remaining points are still processed. -/
theorem spec_C4 (m : minimizer) (ps : ParamVec) (pre post : List SQPoint)
    (pt : SQPoint)
    (h1 : ∀ n, m.jac_ ps pt n = none)
    (h2 : ∀ i j, m.hessian_ ps pt i j = none) :
    minimizer.df { m with mSamples := pre ++ pt :: post } ps =
      minimizer.df { m with mSamples := pre ++ post } ps ∧
    minimizer.ddf { m with mSamples := pre ++ pt :: post } ps =
      minimizer.ddf { m with mSamples := pre ++ post } ps ∧
    minimizer.dfDiags { m with mSamples := pre ++ pt :: post } ps =
      minimizer.dfDiags { m with mSamples := pre } ps ++
        List.finRange mNumParams ++
        minimizer.dfDiags { m with mSamples := post } ps ∧
    minimizer.ddfDiags { m with mSamples := pre ++ pt :: post } ps =
      minimizer.ddfDiags { m with mSamples := pre } ps ++ hesIdxPairs ++
        minimizer.ddfDiags { m with mSamples := post } ps := by
  refine ⟨?_, ?_, ?_, ?_⟩
  · funext n
    rw [df_apply, df_apply]
    simp [h1]
  · apply Matrix.ext
    intro i j
    rw [ddf_apply, ddf_apply]
    simp [h2]
  · rw [minimizer.dfDiags, minimizer.dfDiags, minimizer.dfDiags]
    simp only [List.flatMap_append, List.flatMap_cons]
    rw [List.filter_eq_self.mpr (by intro n hn; simp [h1])]
    rw [List.append_assoc]
  · rw [minimizer.ddfDiags, minimizer.ddfDiags, minimizer.ddfDiags]
    simp only [List.flatMap_append, List.flatMap_cons]
    rw [List.filter_eq_self.mpr (by intro q hq; simp [h2])]
    rw [List.append_assoc]

/-- C7: the evaluator is pure — `df`, `ddf` and their diagnostics depend
only on the parameter argument, the sample list and the external derivative
formulas; two minimizer objects agreeing on those produce identical
results, so repeated calls with the same inputs return identical values. -/
theorem spec_C7 (m1 m2 : minimizer) (ps : ParamVec)
    (hs : m1.mSamples = m2.mSamples) (hj : m1.jac_ = m2.jac_)
    (hh : m1.hessian_ = m2.hessian_) :
    m1.df ps = m2.df ps ∧ m1.ddf ps = m2.ddf ps ∧
    m1.dfDiags ps = m2.dfDiags ps ∧ m1.ddfDiags ps = m2.ddfDiags ps := by
  refine ⟨?_, ?_, ?_, ?_⟩ <;>
    simp only [minimizer.df, minimizer.ddf, minimizer.dfDiags,
      minimizer.ddfDiags, hs, hj, hh]

/-- C8: the core never mutates the sample set: `minimize` returns an object
whose `mSamples` (and every configuration field and oracle) is unchanged —
only `mParams` is written — and any number of repeated fits over the same
object keeps `mSamples` intact. -/
theorem spec_C8 (m : minimizer) (p : ParamVec) :
    (m.minimize p).1.mSamples = m.mSamples ∧
    (m.minimize p).1.mLambda = m.mLambda ∧
    (m.minimize p).1.mMaxIter = m.mMaxIter ∧
    (m.minimize p).1.mMinThresh = m.mMinThresh ∧
    (m.minimize p).1.jac_ = m.jac_ ∧
    (m.minimize p).1.hessian_ = m.hessian_ ∧
    ∀ gs : List ParamVec,
      (gs.foldl (fun mm g => (mm.minimize g).1) m).mSamples = m.mSamples := by
  refine ⟨rfl, rfl, rfl, rfl, rfl, rfl, ?_⟩
  intro gs
  induction gs generalizing m with
  | nil => rfl
  | cons g gs ih =>
      rw [List.foldl_cons]
      exact (ih ((m.minimize g).1)).trans rfl

/-- The inner component loop of `df` (lines 181–187) on a runtime-sized
buffer: walk the vector entries from index `n` upward, adding the `jac`
contribution at each index unless it is NaN. -/
def addJacL (jv : ℕ → Option ℚ) : ℕ → List ℚ → List ℚ
  | _, [] => []
  | n, a :: rest =>
      (match jv n with
       | none => a
       | some v => a + v) :: addJacL jv (n + 1) rest

/-- `minimizer::df` over runtime-sized buffers: the zero vector of length
`mNumParams` (lines 144, 151–153), updated per point by the inner loop; the
`jac` C array is read only at indices `n < mNumParams`. -/
def minimizer.dfL (m : minimizer) (ps : ParamVec) : List ℚ :=
  m.mSamples.foldl
    (fun acc pt =>
      addJacL (fun n => if h : n < mNumParams then m.jac_ ps pt ⟨n, h⟩ else none)
        0 acc)
    (List.replicate mNumParams 0)

/-- The nested row/column loops of `ddf` (lines 237–247) on a runtime-sized
row list: row `mi` is updated by the inner loop over the row-major `hes`
entries of row `mi`. -/
def addHesL (hv : ℕ → ℕ → Option ℚ) : ℕ → List (List ℚ) → List (List ℚ)
  | _, [] => []
  | mi, row :: rest => addJacL (hv mi) 0 row :: addHesL hv (mi + 1) rest

/-- `minimizer::ddf` over runtime-sized buffers: the zero
`mNumParams × mNumParams` matrix (lines 200, 206–210), updated per point by
the nested loops. -/
def minimizer.ddfL (m : minimizer) (ps : ParamVec) : List (List ℚ) :=
  m.mSamples.foldl
    (fun acc pt =>
      addHesL
        (fun mi ni =>
          if h : mi < mNumParams ∧ ni < mNumParams then
            m.hessian_ ps pt ⟨mi, h.1⟩ ⟨ni, h.2⟩
          else none)
        0 acc)
    (List.replicate mNumParams (List.replicate mNumParams 0))

lemma addJacL_length (jv : ℕ → Option ℚ) :
    ∀ (n : ℕ) (l : List ℚ), (addJacL jv n l).length = l.length := by
  intro n l
  induction l generalizing n with
  | nil => rfl
  | cons a rest ih => simp [addJacL, ih]

lemma addHesL_length (hv : ℕ → ℕ → Option ℚ) :
    ∀ (mi : ℕ) (l : List (List ℚ)), (addHesL hv mi l).length = l.length := by
  intro mi l
  induction l generalizing mi with
  | nil => rfl
  | cons row rest ih => simp [addHesL, ih]

lemma addHesL_getD (hv : ℕ → ℕ → Option ℚ) :
    ∀ (l : List (List ℚ)) (mi i : ℕ),
      (addHesL hv mi l).getD i [] = addJacL (hv (mi + i)) 0 (l.getD i []) := by
  intro l
  induction l with
  | nil => intro mi i; cases i <;> rfl
  | cons row rest ih =>
      intro mi i
      cases i with
      | zero => simp [addHesL]
      | succ i =>
          have h : mi + (i + 1) = mi + 1 + i := by omega
          simp only [addHesL, List.getD_cons_succ]
          rw [ih, h]

lemma getD_replicate_of_lt {α : Type} (a d : α) :
    ∀ (k i : ℕ), i < k → (List.replicate k a).getD i d = a := by
  intro k
  induction k with
  | zero => intro i h; exact absurd h (by omega)
  | succ k ih =>
      intro i h
      cases i with
      | zero => rfl
      | succ i =>
          rw [List.replicate_succ, List.getD_cons_succ]
          exact ih i (by omega)

lemma dfL_length (m : minimizer) (ps : ParamVec) :
    (m.dfL ps).length = mNumParams := by
  have key : ∀ (l : List SQPoint) (acc : List ℚ),
      (l.foldl
        (fun acc pt =>
          addJacL
            (fun n => if h : n < mNumParams then m.jac_ ps pt ⟨n, h⟩ else none)
            0 acc)
        acc).length = acc.length := by
    intro l
    induction l with
    | nil => intro acc; rfl
    | cons pt l ih =>
        intro acc
        rw [List.foldl_cons, ih, addJacL_length]
  rw [minimizer.dfL, key, List.length_replicate]

lemma ddfL_length (m : minimizer) (ps : ParamVec) :
    (m.ddfL ps).length = mNumParams := by
  have key : ∀ (l : List SQPoint) (acc : List (List ℚ)),
      (l.foldl
        (fun acc pt =>
          addHesL
            (fun mi ni =>
              if h : mi < mNumParams ∧ ni < mNumParams then
                m.hessian_ ps pt ⟨mi, h.1⟩ ⟨ni, h.2⟩
              else none)
            0 acc)
        acc).length = acc.length := by
    intro l
    induction l with
    | nil => intro acc; rfl
    | cons pt l ih =>
        intro acc
        rw [List.foldl_cons, ih, addHesL_length]
  rw [minimizer.ddfL, key, List.length_replicate]

lemma ddfL_row_length (m : minimizer) (ps : ParamVec) (i : Fin mNumParams) :
    ((m.ddfL ps).getD i.val []).length = mNumParams := by
  have key : ∀ (l : List SQPoint) (acc : List (List ℚ)) (i : ℕ),
      ((l.foldl
        (fun acc pt =>
          addHesL
            (fun mi ni =>
              if h : mi < mNumParams ∧ ni < mNumParams then
                m.hessian_ ps pt ⟨mi, h.1⟩ ⟨ni, h.2⟩
              else none)
            0 acc)
        acc).getD i []).length = (acc.getD i []).length := by
    intro l
    induction l with
    | nil => intro acc i; rfl
    | cons pt l ih =>
        intro acc i
        rw [List.foldl_cons, ih, addHesL_getD, addJacL_length]
  rw [minimizer.ddfL, key,
    getD_replicate_of_lt _ _ _ _ i.isLt, List.length_replicate]

/-- C6: for every parameter vector and every sample set (of any size,
including zero points), the gradient buffer built by `df` has length 11 and
the Hessian buffer built by `ddf` is 11×11: outer length 11 and every row
of length 11. -/
theorem spec_C6 (m : minimizer) (ps : ParamVec) :
    (m.dfL ps).length = mNumParams ∧
    (m.ddfL ps).length = mNumParams ∧
    ∀ i : Fin mNumParams, ((m.ddfL ps).getD i.val []).length = mNumParams :=
  ⟨dfL_length m ps, ddfL_length m ps, fun i => ddfL_row_length m ps i⟩

/-- A concrete minimizer: constructor constants except `mMaxIter = 1`, an
empty cloud, and derivative formulas that always return NaN. -/
def mEx0 : minimizer :=
  { mLambda := 1/10
    mMaxIter := 1
    mMinThresh := 1/200
    mMinThreshPos := by norm_num
    mSamples := []
    mParams := 0
    jac_ := fun _ _ _ => none
    hessian_ := fun _ _ _ _ => none }

/-- `mEx0` with a different damping factor only. -/
def mEx7 : minimizer := { mEx0 with mLambda := 7 }

/-- With an empty cloud the first loop iteration leaves the parameters
unchanged, so the recorded squared step size is zero. -/
lemma ex0_errSq_one : ((loopBody mEx0)^[1] (initState 0)).errSq = 0 := by
  rw [Function.iterate_one, loopBody_errSq, loopBody_mParams]
  have hJ : mEx0.df (initState 0).mParams = 0 := rfl
  rw [hJ, Matrix.mulVec_zero, sub_zero, sub_self]
  simp [sqNorm]

theorem spec_C2_witness :
    (mEx0.minimize 0).2.1 = false ∧ (finalState mEx0 0).iter = 1 ∧
    (mEx0.minimize 0).2.2 = (loopBody mEx0 (initState 0)).mParams :=
  (spec_C2 mEx0 0).2 rfl

theorem spec_C10_witness :
    (mEx0.minimize 0).2.1 = false ∧
    (finalState mEx0 0).iter = mEx0.mMaxIter :=
  (spec_C10 mEx0 0).2 le_rfl
    (fun j hj0 hj1 => absurd hj0 (by
      have h : mEx0.mMaxIter = 1 := rfl
      omega))
    (by
      show ((loopBody mEx0)^[1] (initState 0)).errSq ≤ mEx0.mMinThresh ^ 2
      rw [ex0_errSq_one]
      exact sq_nonneg _)

theorem spec_C3_witness : mEx0.df 0 = 0 ∧ mEx0.ddf 0 = 0 :=
  (spec_C3 mEx0 0).2.2 rfl

theorem spec_C7_witness :
    mEx0.df 0 = mEx7.df 0 ∧ mEx0.ddf 0 = mEx7.ddf 0 ∧
    mEx0.dfDiags 0 = mEx7.dfDiags 0 ∧ mEx0.ddfDiags 0 = mEx7.ddfDiags 0 :=
  spec_C7 mEx0 mEx7 0 rfl rfl rfl

/-- A sample point whose derivative contributions are all NaN under the
`mEx4` formulas. -/
def ptNaN : SQPoint := (5, 5, 5)

/-- A concrete minimizer whose derivative formulas return NaN exactly at
`ptNaN` and the value 1 elsewhere. -/
def mEx4 : minimizer :=
  { mLambda := 1/10
    mMaxIter := 1000
    mMinThresh := 1/200
    mMinThreshPos := by norm_num
    mSamples := [(0, 0, 0), ptNaN, (1, 0, 0)]
    mParams := 0
    jac_ := fun _ pt _ => if pt = ptNaN then none else some 1
    hessian_ := fun _ pt _ _ => if pt = ptNaN then none else some 1 }

def pre4 : List SQPoint := [(0, 0, 0)]

def post4 : List SQPoint := [(1, 0, 0)]

theorem spec_C4_witness :
    minimizer.df { mEx4 with mSamples := pre4 ++ ptNaN :: post4 } 0 =
      minimizer.df { mEx4 with mSamples := pre4 ++ post4 } 0 ∧
    minimizer.ddf { mEx4 with mSamples := pre4 ++ ptNaN :: post4 } 0 =
      minimizer.ddf { mEx4 with mSamples := pre4 ++ post4 } 0 ∧
    minimizer.dfDiags { mEx4 with mSamples := pre4 ++ ptNaN :: post4 } 0 =
      minimizer.dfDiags { mEx4 with mSamples := pre4 } 0 ++
        List.finRange mNumParams ++
        minimizer.dfDiags { mEx4 with mSamples := post4 } 0 ∧
    minimizer.ddfDiags { mEx4 with mSamples := pre4 ++ ptNaN :: post4 } 0 =
      minimizer.ddfDiags { mEx4 with mSamples := pre4 } 0 ++ hesIdxPairs ++
        minimizer.ddfDiags { mEx4 with mSamples := post4 } 0 :=
  spec_C4 mEx4 0 pre4 post4 ptNaN
    (fun n => by simp [mEx4])
    (fun i j => by simp [mEx4])

/-- A concrete minimizer over one point whose Hessian formula is the
identity matrix and whose gradient formula is zero. -/
def mEx1 : minimizer :=
  { mLambda := 1/10
    mMaxIter := 1000
    mMinThresh := 1/200
    mMinThreshPos := by norm_num
    mSamples := [(0, 0, 0)]
    mParams := 0
    jac_ := fun _ _ _ => some 0
    hessian_ := fun _ _ i j => some (if i = j then 1 else 0) }

lemma ddf_mEx1 (ps : ParamVec) : mEx1.ddf ps = 1 := by
  apply Matrix.ext
  intro i j
  rw [ddf_apply]
  simp [mEx1, Matrix.one_apply]

theorem spec_C1_witness :
    (loopBody mEx1 (iterAt mEx1 0 0)).dH = D_at mEx1 0 0 ∧
    (loopBody mEx1 (iterAt mEx1 0 0)).mParams =
      (iterAt mEx1 0 0).mParams -
        (matInv (A_at mEx1 0 0)).mulVec (J_at mEx1 0 0) ∧
    (A_at mEx1 0 0).mulVec
        ((iterAt mEx1 0 0).mParams -
          (loopBody mEx1 (iterAt mEx1 0 0)).mParams) =
      J_at mEx1 0 0 := by
  obtain ⟨h1, h2, h3⟩ := spec_C1 mEx1 0 0
  have hU : IsUnit (A_at mEx1 0 0).det := by
    have hH : H_at mEx1 0 0 = 1 := ddf_mEx1 _
    have hA : A_at mEx1 0 0 = Matrix.diagonal fun _ => (11/10 : ℚ) := by
      rw [A_at, D_at, hH]
      apply Matrix.ext
      intro i j
      rw [Matrix.add_apply, Matrix.smul_apply]
      by_cases hij : i = j
      · subst hij
        rw [Matrix.one_apply_eq, Matrix.diagonal_apply_eq,
          Matrix.diagonal_apply_eq, Matrix.one_apply_eq]
        show (1 : ℚ) + mEx1.mLambda * 1 = 11/10
        norm_num [mEx1]
      · rw [Matrix.one_apply_ne hij, Matrix.diagonal_apply_ne _ hij,
          Matrix.diagonal_apply_ne _ hij]
        show (0 : ℚ) + mEx1.mLambda * 0 = 0
        ring
    have hinv : Invertible (Matrix.diagonal fun _ : Fin mNumParams => (11/10 : ℚ)) := by
      refine ⟨Matrix.diagonal fun _ => (10/11 : ℚ), ?_, ?_⟩
      · rw [Matrix.diagonal_mul_diagonal]
        have hfun : (fun i : Fin mNumParams => (10/11 : ℚ) * (11/10 : ℚ)) =
            fun _ => (1 : ℚ) := by
          funext i
          norm_num
        rw [hfun, Matrix.diagonal_one]
      · rw [Matrix.diagonal_mul_diagonal]
        have hfun : (fun i : Fin mNumParams => (11/10 : ℚ) * (10/11 : ℚ)) =
            fun _ => (1 : ℚ) := by
          funext i
          norm_num
        rw [hfun, Matrix.diagonal_one]
    rw [hA]
    haveI := hinv
    exact Matrix.isUnit_det_of_invertible _
  exact ⟨h1, h2, h3 hU⟩

/-- Entry view of the inner component loop: entry `i` of the updated buffer
adds the contribution at absolute index `k + i` unless it is NaN. -/
lemma addJacL_getD (jv : ℕ → Option ℚ) :
    ∀ (l : List ℚ) (k i : ℕ), i < l.length →
      (addJacL jv k l).getD i 0 =
        (match jv (k + i) with
         | none => l.getD i 0
         | some v => l.getD i 0 + v) := by
  intro l
  induction l with
  | nil =>
      intro k i h
      exact absurd h (by simp)
  | cons a rest ih =>
      intro k i h
      cases i with
      | zero => simp [addJacL]
      | succ i =>
          have hlen : i < rest.length := by simpa using h
          have harg : k + (i + 1) = (k + 1) + i := by omega
          simp only [addJacL, List.getD_cons_succ]
          rw [ih (k + 1) i hlen, harg]

/-- Coherence of the two embeddings of `minimizer::df`: entry `n` of the
runtime-sized buffer equals component `n` of the `Fin`-indexed gradient. -/
lemma dfL_getD (m : minimizer) (ps : ParamVec) (n : Fin mNumParams) :
    (m.dfL ps).getD n.val 0 = m.df ps n := by
  have key : ∀ (l : List SQPoint) (accL : List ℚ) (accF : ParamVec),
      accL.length = mNumParams →
      (∀ j : Fin mNumParams, accL.getD j.val 0 = accF j) →
      (l.foldl
        (fun acc pt =>
          addJacL
            (fun k => if h : k < mNumParams then m.jac_ ps pt ⟨k, h⟩ else none)
            0 acc)
        accL).getD n.val 0 =
      (l.foldl
        (fun acc pt => fun j =>
          match m.jac_ ps pt j with
          | none => acc j
          | some v => acc j + v)
        accF) n := by
    intro l
    induction l with
    | nil =>
        intro accL accF hlen hpt
        exact hpt n
    | cons pt l ih =>
        intro accL accF hlen hpt
        rw [List.foldl_cons, List.foldl_cons]
        apply ih
        · rw [addJacL_length, hlen]
        · intro j
          have hj : j.val < accL.length := by rw [hlen]; exact j.isLt
          rw [addJacL_getD _ _ _ _ hj]
          have h0 : (0 : ℕ) + j.val = j.val := by omega
          rw [h0, dif_pos j.isLt, Fin.eta, hpt j]
  rw [minimizer.dfL, minimizer.df]
  apply key
  · rw [List.length_replicate]
  · intro j
    rw [getD_replicate_of_lt _ _ _ _ j.isLt]

/-- Coherence of the two embeddings of `minimizer::ddf`: entry `(i, j)` of
the runtime-sized row list equals entry `(i, j)` of the `Fin`-indexed
Hessian. -/
lemma ddfL_getD (m : minimizer) (ps : ParamVec) (i j : Fin mNumParams) :
    ((m.ddfL ps).getD i.val []).getD j.val 0 = m.ddf ps i j := by
  have key : ∀ (l : List SQPoint) (accL : List (List ℚ)) (accF : MatXd),
      (∀ a : Fin mNumParams, (accL.getD a.val []).length = mNumParams) →
      (∀ (a b : Fin mNumParams), (accL.getD a.val []).getD b.val 0 = accF a b) →
      (((l.foldl
        (fun acc pt =>
          addHesL
            (fun mi ni =>
              if h : mi < mNumParams ∧ ni < mNumParams then
                m.hessian_ ps pt ⟨mi, h.1⟩ ⟨ni, h.2⟩
              else none)
            0 acc)
        accL).getD i.val []).getD j.val 0) =
      (l.foldl
        (fun acc pt => Matrix.of fun a b =>
          match m.hessian_ ps pt a b with
          | none => acc a b
          | some v => acc a b + v)
        accF) i j := by
    intro l
    induction l with
    | nil =>
        intro accL accF hlen hpt
        exact hpt i j
    | cons pt l ih =>
        intro accL accF hlen hpt
        rw [List.foldl_cons, List.foldl_cons]
        apply ih
        · intro a
          rw [addHesL_getD]
          have h0 : (0 : ℕ) + a.val = a.val := by omega
          rw [h0, addJacL_length, hlen a]
        · intro a b
          rw [addHesL_getD]
          have h0 : (0 : ℕ) + a.val = a.val := by omega
          rw [h0]
          have hb : b.val < (accL.getD a.val []).length := by
            rw [hlen a]
            exact b.isLt
          rw [addJacL_getD _ _ _ _ hb]
          have h0b : (0 : ℕ) + b.val = b.val := by omega
          rw [h0b, dif_pos (And.intro a.isLt b.isLt), Fin.eta, Fin.eta,
            Matrix.of_apply, hpt a b]
  rw [minimizer.ddfL, minimizer.ddf]
  apply key
  · intro a
    rw [getD_replicate_of_lt _ _ _ _ a.isLt, List.length_replicate]
  · intro a b
    rw [getD_replicate_of_lt _ _ _ _ a.isLt,
      getD_replicate_of_lt _ _ _ _ b.isLt]
    exact (Matrix.zero_apply a b).symm
